import Mathlib

set_option linter.unusedVariables false

/-! Shallow embedding of the thread-safe singly linked list of this repository
(src/include/ll.h, src/src/ll.c).  Locks have no sequential effect, so the
pthread rwlock fields and every RWLOCK/RWUNLOCK call are erased by the
embedding.  A node chain is modelled as a `List` of the node values (a node
pointer becomes the index of the node in the chain); a callback pointer that
may be NULL is modelled by a `Bool` flag saying whether it is bound.  Undefined
behaviour — dereferencing NULL, splicing through an uninitialized pointer,
calling a NULL callback, a failed assert — is modelled by an `Option` result
being `none`.  Operations that may invoke the `val_teardown` callback also
return the list of values passed to it, in call order. -/

inductive locktype where
  | l_read
  | l_write
  deriving DecidableEq, Repr

/-- Embedding of `struct ll` (ll.h): `len`, `hd` (the whole reachable chain of
node values), the rwlock `m` is erased, `val_teardown` and `val_printer` record
whether the callback pointer is non-NULL, `valid_flag` is the validity flag. -/
structure ll_t (α : Type) where
  len : Int
  hd : List α
  val_teardown : Bool
  val_printer : Bool
  valid_flag : Bool
  deriving DecidableEq

/-- Embedding of `ll_new`: empty chain, zero length, valid.  `val_teardown` is
whatever the caller passed (`tdb` says whether it is non-NULL); `val_printer`
is left uninitialized by the C code, so it is a parameter `pb` here. -/
def ll_new (α : Type) (tdb : Bool) (pb : Bool) : ll_t α :=
  { len := 0, hd := [], val_teardown := tdb, val_printer := pb, valid_flag := true }

/-- The `for (; n > 1; n--)` loop of `ll_select_n_min_1`, acting on the suffix
of the chain that starts at the current node: one step advances to `nxt` and
fails if `nxt` is NULL (a concurrent tail deletion in the C code).  Locking is
erased.  `selectLoop node k` performs `k` advance steps. -/
def selectLoop {α : Type} : List α → Nat → Bool
  | _, 0 => true
  | [], _ + 1 => false
  | _ :: rest, k + 1 =>
      match rest with
      | [] => false
      | _ :: _ => selectLoop rest k

/-- Result of `ll_select_n_min_1`: `-1` failure, success with no node produced
(the `n == 0` early return), or success with the node at chain index `i`
(`i = n - 1`); the out-parameter node pointer is modelled by the index. -/
inductive SelRes where
  | fail
  | zero
  | found (i : Nat)
  deriving DecidableEq, Repr

/-- Embedding of `ll_select_n_min_1`.  `n < 0` fails before touching the list;
`n == 0` succeeds producing no node; otherwise CHECK_VALID, then: empty chain
runs `assert(list->len == 0)` (abort = `none` if it fires) and fails; else the
hand-over-hand walk of `n - 1` steps either reaches the node at index `n - 1`
or falls off the end and fails. -/
def ll_select_n_min_1 {α : Type} (s : ll_t α) (n : Int) (lt : locktype) : Option SelRes :=
  if n < 0 then some .fail
  else if n = 0 then some .zero
  else if s.valid_flag = false then some .fail
  else if s.hd.isEmpty then
    if s.len = 0 then some .fail else none
  else if selectLoop s.hd (n.toNat - 1) then some (.found (n.toNat - 1))
  else some .fail

/-- Splicing a new node behind the node at index `i`, as in `ll_insert_n`:
`new_node->nxt = nth_node->nxt; nth_node->nxt = new_node`.  (The `[]` case is
unreachable in the flows that call it: the found node exists.) -/
def insertAfter {α : Type} : List α → Nat → α → List α
  | [], _, v => [v]
  | x :: xs, 0, v => x :: v :: xs
  | x :: xs, k + 1, v => x :: insertAfter xs k v

/-- Unlinking the node after index `i`, as in `ll_remove_n`:
`nth_node->nxt = nth_node->nxt == NULL ? NULL : nth_node->nxt->nxt`. -/
def removeAfter {α : Type} : List α → Nat → List α
  | [], _ => []
  | x :: xs, 0 => x :: xs.tail
  | x :: xs, k + 1 => x :: removeAfter xs k

/-- Embedding of `ll_insert_n`.  Result `some (r, s')`: return value and new
state; `none` is a crash.  At `n == 0` the node is pushed in front of `hd`; at
`n ≠ 0`, on select success the node is spliced behind the returned predecessor.
The returned value is `list->len` read after the increment. -/
def ll_insert_n {α : Type} (s : ll_t α) (v : α) (n : Int) : Option (Int × ll_t α) :=
  if n = 0 then
    if s.valid_flag = false then some (-1, s)
    else some (s.len + 1, { s with hd := v :: s.hd, len := s.len + 1 })
  else
    match ll_select_n_min_1 s n .l_write with
    | some .fail => some (-1, s)
    | some (.found i) =>
        some (s.len + 1, { s with hd := insertAfter s.hd i v, len := s.len + 1 })
    | some .zero => none
    | none => none

/-- Embedding of `ll_insert_first`: `ll_insert_n(list, val, 0)`. -/
def ll_insert_first {α : Type} (s : ll_t α) (v : α) : Option (Int × ll_t α) :=
  ll_insert_n s v 0

/-- Embedding of `ll_insert_last`: `ll_insert_n(list, val, list->len)` (the
length is read without the lock; sequentially it is just `s.len`). -/
def ll_insert_last {α : Type} (s : ll_t α) (v : α) : Option (Int × ll_t α) :=
  ll_insert_n s v s.len

/-- Embedding of `ll_remove_n`.  Result `some (r, s', tds)`: return value, new
state, teardown trace; `none` is a crash.  At `n == 0`, `tmp = list->hd;
list->hd = tmp->nxt` dereferences NULL when the chain is empty.  At `n ≠ 0`,
on select success `tmp = nth_node->nxt`; the relink tolerates `tmp == NULL`
but `list->val_teardown(tmp->val)` then dereferences NULL (after `len` was
already decremented).  The returned value is `list->len` after the decrement. -/
def ll_remove_n {α : Type} (s : ll_t α) (n : Int) : Option (Int × ll_t α × List α) :=
  if n = 0 then
    if s.valid_flag = false then some (-1, s, [])
    else
      match s.hd with
      | [] => none
      | x :: rest =>
          if s.val_teardown then
            some (s.len - 1, { s with hd := rest, len := s.len - 1 }, [x])
          else none
  else
    match ll_select_n_min_1 s n .l_write with
    | some .fail => some (-1, s, [])
    | some (.found i) =>
        match (s.hd.drop (i + 1)).head? with
        | none => none
        | some x =>
            if s.val_teardown then
              some (s.len - 1, { s with hd := removeAfter s.hd i, len := s.len - 1 }, [x])
            else none
    | some .zero => none
    | none => none

/-- Embedding of `ll_remove_first`: `ll_remove_n(list, 0)`. -/
def ll_remove_first {α : Type} (s : ll_t α) : Option (Int × ll_t α × List α) :=
  ll_remove_n s 0

/-- Embedding of `ll_pop_first`: detaches the head node if present and returns
its value without invoking `val_teardown` (the empty trace component); on an
invalid or empty list returns NULL with the state untouched.  Cannot crash. -/
def ll_pop_first {α : Type} (s : ll_t α) : Option α × ll_t α × List α :=
  if s.valid_flag = false then (none, s, [])
  else
    match s.hd with
    | [] => (none, s, [])
    | x :: rest => (some x, { s with hd := rest, len := s.len - 1 }, [])

/-- The scan loop of `ll_remove_search` / `ll_remove_find` / `ll_find`:
first node (index and value) whose value satisfies the condition. -/
def scanCond {α : Type} (cond : α → Bool) : List α → Option (Nat × α)
  | [] => none
  | x :: xs => if cond x then some (0, x) else (scanCond cond xs).map (fun p => (p.1 + 1, p.2))

/-- Embedding of `ll_remove_search`.  After CHECK_VALID, scan for the first
node satisfying `cond`; not found returns `-1` with no mutation; found at the
head relinks `list->hd`, otherwise relinks through the tracked previous node;
then teardown on the removed value, decrement, and return `list->len`. -/
def ll_remove_search {α : Type} (s : ll_t α) (cond : α → Bool) :
    Option (Int × ll_t α × List α) :=
  if s.valid_flag = false then some (-1, s, [])
  else
    match scanCond cond s.hd with
    | none => some (-1, s, [])
    | some (i, x) =>
        if s.val_teardown then
          some (s.len - 1,
            { s with hd := if i = 0 then s.hd.tail else removeAfter s.hd (i - 1),
                     len := s.len - 1 },
            [x])
        else none

/-- Embedding of `ll_remove_find`: like `ll_remove_search` but the node
matches when `comparator(node->val, ref_value) == 0`. -/
def ll_remove_find {α β : Type} (s : ll_t α) (comparator : α → β → Int) (ref_value : β) :
    Option (Int × ll_t α × List α) :=
  if s.valid_flag = false then some (-1, s, [])
  else
    match scanCond (fun x => comparator x ref_value == 0) s.hd with
    | none => some (-1, s, [])
    | some (i, x) =>
        if s.val_teardown then
          some (s.len - 1,
            { s with hd := if i = 0 then s.hd.tail else removeAfter s.hd (i - 1),
                     len := s.len - 1 },
            [x])
        else none

/-- Embedding of `ll_get_n`: calls `ll_select_n_min_1(list, node, n + 1, read)`
with `node` initialized to NULL.  Select failure returns NULL (`some none`);
a select success through the `n == 0` early return (reached exactly for the
argument `n = -1`) leaves `node` NULL and `node->val` dereferences it
(`none`); otherwise the value of the node at index `n` is returned. -/
def ll_get_n {α : Type} (s : ll_t α) (n : Int) : Option (Option α) :=
  match ll_select_n_min_1 s (n + 1) .l_read with
  | some .fail => some none
  | some .zero => none
  | some (.found i) => s.hd[i]?.map (fun v => some v)
  | none => none

/-- Embedding of `ll_get_first`: `ll_get_n(list, 0)`. -/
def ll_get_first {α : Type} (s : ll_t α) : Option (Option α) :=
  ll_get_n s 0

/-- Embedding of `_ll_map_internal`: applies `f` to every node value in order
(under that node's write lock, erased here). -/
def mapLoop {α : Type} (f : α → α) : List α → List α
  | [] => []
  | x :: xs => f x :: mapLoop f xs

/-- Embedding of `ll_map`: CHECK_VALID then `_ll_map_internal`; an invalid
list is returned untouched. -/
def ll_map {α : Type} (s : ll_t α) (f : α → α) : ll_t α :=
  if s.valid_flag = false then s
  else { s with hd := mapLoop f s.hd }

/-- Embedding of `ll_print` (takes the list by value, so it can never mutate
the caller's list): the values handed to `val_printer`, i.e. the chain in
order when the list is valid and a printer is bound, nothing otherwise. -/
def ll_print {α : Type} (s : ll_t α) : List α :=
  if s.valid_flag = false then []
  else if s.val_printer then s.hd else []

/-- Embedding of `ll_length`: the length under the read lock, `-1` if the
list is invalid. -/
def ll_length {α : Type} (s : ll_t α) : Int :=
  if s.valid_flag = false then -1 else s.len

/-- Embedding of `ll_find`: CHECK_VALID, scan for the first node with
`comparator(node->val, ref_value) == 0`, return its value or NULL. -/
def ll_find {α β : Type} (s : ll_t α) (comparator : α → β → Int) (ref_value : β) : Option α :=
  if s.valid_flag = false then none
  else
    match scanCond (fun x => comparator x ref_value == 0) s.hd with
    | none => none
    | some (_, x) => some x

/-- The teardown loop of `ll_clear`: walks the chain, calls `val_teardown`
on every value (crash if the callback is NULL and a node exists), frees each
node and decrements `len` once per node; returns the final `len` and the
teardown trace. -/
def clearLoop {α : Type} (tdb : Bool) : List α → Int → Option (Int × List α)
  | [], len => some (len, [])
  | x :: xs, len =>
      if tdb then (clearLoop tdb xs (len - 1)).map (fun p => (p.1, x :: p.2))
      else none

/-- Embedding of `ll_clear`: a no-op on an invalid list (CHECK_VALID);
otherwise tear down every node, run `assert(list->len == 0)` (abort = `none`
if it fires), then null the head, clear both callback bindings, and set the
flag to INVALID. -/
def ll_clear {α : Type} (s : ll_t α) : Option (ll_t α × List α) :=
  if s.valid_flag = false then some (s, [])
  else
    match clearLoop s.val_teardown s.hd s.len with
    | none => none
    | some (len', tds) =>
        if len' = 0 then
          some ({ len := 0, hd := [], val_teardown := false, val_printer := false,
                  valid_flag := false }, tds)
        else none

/-- Embedding of `ll_delete`: `ll_clear` only when the flag is not INVALID,
then `free(list)` unconditionally; observable effect = the teardown trace. -/
def ll_delete {α : Type} (s : ll_t α) : Option (List α) :=
  if s.valid_flag = false then some []
  else (ll_clear s).map (fun p => p.2)

/-- The structural invariant of the spec: while the list is valid, `len`
equals the number of nodes reachable from `hd` (the chain being a `List`,
finiteness and acyclicity are inherent to the embedding). -/
def LLInv {α : Type} (s : ll_t α) : Prop :=
  s.valid_flag = true → s.len = (s.hd.length : Int)

/-- The public operations of the claim about invariant preservation, as data:
one constructor per operation (callbacks are parameters). -/
inductive Op (α β : Type) where
  | op_insert (v : α) (n : Int)
  | op_insert_first (v : α)
  | op_insert_last (v : α)
  | op_remove (n : Int)
  | op_remove_first
  | op_pop_first
  | op_remove_search (cond : α → Bool)
  | op_remove_find (comparator : α → β → Int) (ref : β)
  | op_get (n : Int)
  | op_get_first
  | op_find (comparator : α → β → Int) (ref : β)
  | op_map (f : α → α)

/-- State transition of one public operation (the non-state results are
discarded; `none` is a crash).  `ll_find` reads but never writes the state and
cannot crash, so its step keeps the state. -/
def stepOp {α β : Type} (s : ll_t α) : Op α β → Option (ll_t α)
  | .op_insert v n => (ll_insert_n s v n).map Prod.snd
  | .op_insert_first v => (ll_insert_first s v).map Prod.snd
  | .op_insert_last v => (ll_insert_last s v).map Prod.snd
  | .op_remove n => (ll_remove_n s n).map (fun p => p.2.1)
  | .op_remove_first => (ll_remove_first s).map (fun p => p.2.1)
  | .op_pop_first => some (ll_pop_first s).2.1
  | .op_remove_search cond => (ll_remove_search s cond).map (fun p => p.2.1)
  | .op_remove_find comparator ref => (ll_remove_find s comparator ref).map (fun p => p.2.1)
  | .op_get n => (ll_get_n s n).map (fun _ => s)
  | .op_get_first => (ll_get_first s).map (fun _ => s)
  | .op_find comparator ref => some s
  | .op_map f => some (ll_map s f)

/-- The stated index precondition of each operation (ll.h): insertion accepts
`0 ≤ n ≤ len`, removal and lookup by index accept `0 ≤ n < len`; the other
operations have no index precondition. -/
def precondOp {α β : Type} (s : ll_t α) : Op α β → Prop
  | .op_insert _ n => 0 ≤ n ∧ n ≤ s.len
  | .op_remove n => 0 ≤ n ∧ n < s.len
  | .op_get n => 0 ≤ n ∧ n < s.len
  | _ => True

/-- A concrete valid three-element list used to instantiate theorems. -/
def demoList : ll_t Nat :=
  { len := 3, hd := [10, 20, 30], val_teardown := true, val_printer := true, valid_flag := true }

/-- A concrete invalidated (cleared) list used to instantiate theorems. -/
def demoCleared : ll_t Nat :=
  { len := 0, hd := [], val_teardown := false, val_printer := false, valid_flag := false }

/-! Helper lemmas about the loop-level functions. -/

theorem selectLoop_true_iff {α : Type} (k : Nat) (xs : List α) :
    selectLoop xs k = true ↔ (k = 0 ∨ k < xs.length) := by
  induction k generalizing xs with
  | zero => simp [selectLoop]
  | succ k ih =>
    match xs with
    | [] => simp [selectLoop]
    | x :: rest =>
      match rest with
      | [] =>
        simp [selectLoop]
      | y :: rest2 =>
        have hstep : selectLoop (x :: y :: rest2) (k + 1) = selectLoop (y :: rest2) k := rfl
        rw [hstep, ih]
        simp only [List.length_cons]
        omega

theorem insertAfter_length {α : Type} (v : α) (k : Nat) (xs : List α) :
    (insertAfter xs k v).length = xs.length + 1 := by
  induction xs generalizing k with
  | nil => simp [insertAfter]
  | cons x xs ih =>
    match k with
    | 0 => simp [insertAfter]
    | k + 1 => simp [insertAfter, ih]

theorem insertAfter_get_succ {α : Type} (v : α) (k : Nat) (xs : List α) (h : k < xs.length) :
    (insertAfter xs k v)[k + 1]? = some v := by
  induction xs generalizing k with
  | nil => simp at h
  | cons x xs ih =>
    match k with
    | 0 => simp [insertAfter]
    | k + 1 =>
      have hstep : insertAfter (x :: xs) (k + 1) v = x :: insertAfter xs k v := rfl
      rw [hstep]
      simpa using ih k (by simpa using h)

theorem removeAfter_length {α : Type} (k : Nat) (xs : List α) (h : k + 1 < xs.length) :
    (removeAfter xs k).length + 1 = xs.length := by
  induction xs generalizing k with
  | nil => simp at h
  | cons x xs ih =>
    match k with
    | 0 =>
      match xs with
      | [] => simp at h
      | y :: ys => simp [removeAfter]
    | k + 1 =>
      have hs : removeAfter (x :: xs) (k + 1) = x :: removeAfter xs k := rfl
      rw [hs]
      simp only [List.length_cons]
      have := ih k (by simpa using h)
      omega

theorem scanCond_some {α : Type} (cond : α → Bool) (xs : List α) (i : Nat) (x : α)
    (h : scanCond cond xs = some (i, x)) : xs[i]? = some x ∧ cond x = true := by
  induction xs generalizing i with
  | nil => simp [scanCond] at h
  | cons y ys ih =>
    by_cases hc : cond y
    · simp [scanCond, hc] at h
      obtain ⟨h1, h2⟩ := h
      subst h1; subst h2
      exact ⟨by simp, hc⟩
    · rw [show scanCond cond (y :: ys) = (scanCond cond ys).map (fun p => (p.1 + 1, p.2)) from by
        simp [scanCond, hc]] at h
      match hscan : scanCond cond ys with
      | none => rw [hscan] at h; simp at h
      | some (j, z) =>
        rw [hscan] at h
        simp only [Option.map_some'] at h
        have h' : j + 1 = i ∧ z = x := by simpa using h
        obtain ⟨hi, hx⟩ := h'
        subst hx
        have := ih j hscan
        rw [← hi]
        simpa using this

theorem mapLoop_length {α : Type} (f : α → α) (xs : List α) :
    (mapLoop f xs).length = xs.length := by
  induction xs with
  | nil => rfl
  | cons x xs ih => simp [mapLoop, ih]

theorem clearLoop_run {α : Type} (xs : List α) (len : Int) :
    clearLoop true xs len = some (len - xs.length, xs) := by
  induction xs generalizing len with
  | nil => simp [clearLoop]
  | cons x xs ih =>
    rw [show clearLoop true (x :: xs) len
          = (clearLoop true xs (len - 1)).map (fun p => (p.1, x :: p.2)) from by
        simp [clearLoop]]
    rw [ih]
    simp only [Option.map_some', List.length_cons]
    congr 2
    push_cast
    ring

/-! Characterization of `ll_select_n_min_1`. -/

theorem select_neg {α : Type} (s : ll_t α) (lt : locktype) (n : Int) (h : n < 0) :
    ll_select_n_min_1 s n lt = some .fail := by
  rw [ll_select_n_min_1, if_pos h]

theorem select_zero {α : Type} (s : ll_t α) (lt : locktype) :
    ll_select_n_min_1 s 0 lt = some .zero := by
  rw [ll_select_n_min_1, if_neg (by omega), if_pos rfl]

theorem select_invalid {α : Type} (s : ll_t α) (lt : locktype) (n : Int)
    (hv : s.valid_flag = false) (h : 1 ≤ n) :
    ll_select_n_min_1 s n lt = some .fail := by
  rw [ll_select_n_min_1, if_neg (by omega), if_neg (by omega), if_pos hv]

theorem select_found {α : Type} (s : ll_t α) (lt : locktype) (n : Int)
    (hInv : LLInv s) (hv : s.valid_flag = true) (h1 : 1 ≤ n) (h2 : n ≤ s.len) :
    ll_select_n_min_1 s n lt = some (.found (n.toNat - 1)) := by
  have hlen : s.len = (s.hd.length : Int) := hInv hv
  have hne : ¬(s.hd.isEmpty = true) := by
    cases hhd : s.hd with
    | nil => rw [hhd] at hlen; simp at hlen; omega
    | cons y ys => simp [hhd]
  rw [ll_select_n_min_1, if_neg (by omega), if_neg (by omega), if_neg (by simp [hv]),
    if_neg hne, if_pos ((selectLoop_true_iff _ _).mpr (by omega))]

theorem select_over {α : Type} (s : ll_t α) (lt : locktype) (n : Int)
    (hInv : LLInv s) (hv : s.valid_flag = true) (h2 : s.len < n) :
    ll_select_n_min_1 s n lt = some .fail := by
  have hlen : s.len = (s.hd.length : Int) := hInv hv
  have h1 : 1 ≤ n := by omega
  rw [ll_select_n_min_1, if_neg (by omega), if_neg (by omega), if_neg (by simp [hv])]
  by_cases hhd : s.hd.isEmpty = true
  · rw [if_pos hhd]
    have : s.hd = [] := by simpa [List.isEmpty_iff] using hhd
    rw [if_pos (by rw [this] at hlen; simpa using hlen)]
  · rw [if_neg hhd]
    have hpos : 0 < s.hd.length := by
      cases hl : s.hd with
      | nil => rw [hl] at hhd; simp at hhd
      | cons y ys => simp [hl]
    rw [if_neg]
    · rw [selectLoop_true_iff]
      push_neg
      constructor <;> omega

theorem select_found_elim {α : Type} (s : ll_t α) (lt : locktype) (n : Int) (i : Nat)
    (h : ll_select_n_min_1 s n lt = some (.found i)) :
    s.valid_flag = true ∧ 1 ≤ n ∧ i = n.toNat - 1 ∧ i < s.hd.length := by
  rw [ll_select_n_min_1] at h
  by_cases h1 : n < 0
  · rw [if_pos h1] at h; exact absurd h (by simp)
  rw [if_neg h1] at h
  by_cases h2 : n = 0
  · rw [if_pos h2] at h; exact absurd h (by simp)
  rw [if_neg h2] at h
  by_cases h3 : s.valid_flag = false
  · rw [if_pos h3] at h; exact absurd h (by simp)
  rw [if_neg h3] at h
  by_cases h4 : s.hd.isEmpty = true
  · rw [if_pos h4] at h
    by_cases h5 : s.len = 0 <;> simp [h5] at h
  rw [if_neg h4] at h
  by_cases h6 : selectLoop s.hd (n.toNat - 1) = true
  · rw [if_pos h6] at h
    have hi : n.toNat - 1 = i := by simpa using h
    have hpos : 0 < s.hd.length := by
      cases hl : s.hd with
      | nil => rw [hl] at h4; simp at h4
      | cons y ys => simp [hl]
    have hloop := (selectLoop_true_iff (n.toNat - 1) s.hd).mp h6
    refine ⟨by simpa using h3, by omega, hi.symm, by omega⟩
  · rw [if_neg h6] at h; exact absurd h (by simp)

/-! Characterization of the insert / remove / get / clear operations. -/

theorem insert_success {α : Type} (s : ll_t α) (v : α) (n : Int)
    (hInv : LLInv s) (hv : s.valid_flag = true) (h0 : 0 ≤ n) (h2 : n ≤ s.len) :
    ∃ s', ll_insert_n s v n = some (s.len + 1, s') ∧
      s'.len = s.len + 1 ∧ s'.hd.length = s.hd.length + 1 ∧
      s'.hd[n.toNat]? = some v ∧
      s'.valid_flag = true ∧ s'.val_teardown = s.val_teardown ∧
      s'.val_printer = s.val_printer := by
  have hlen : s.len = (s.hd.length : Int) := hInv hv
  by_cases hn : n = 0
  · subst hn
    refine ⟨{ s with hd := v :: s.hd, len := s.len + 1 }, ?_, rfl, by simp, by simp, hv, rfl, rfl⟩
    rw [ll_insert_n, if_pos rfl, if_neg (by simp [hv])]
  · have h1 : 1 ≤ n := by omega
    have hsel := select_found s .l_write n hInv hv h1 h2
    have hk : n.toNat - 1 < s.hd.length := by omega
    refine ⟨{ s with hd := insertAfter s.hd (n.toNat - 1) v, len := s.len + 1 }, ?_, rfl,
      by simp [insertAfter_length], ?_, hv, rfl, rfl⟩
    · simp only [ll_insert_n, if_neg hn, hsel]
    · show (insertAfter s.hd (n.toNat - 1) v)[n.toNat]? = some v
      rw [show n.toNat = (n.toNat - 1) + 1 by omega]
      exact insertAfter_get_succ v _ _ hk

theorem insert_fail_state {α : Type} (s : ll_t α) (v : α) (n : Int) (s' : ll_t α)
    (hInv : LLInv s) (h : ll_insert_n s v n = some (-1, s')) : s' = s := by
  rw [ll_insert_n] at h
  split at h
  · split at h
    · have h' : (-1 : Int) = -1 ∧ s = s' := by simpa using h
      exact h'.2.symm
    · next hv =>
      have hvt : s.valid_flag = true := by simpa using hv
      have hlen := hInv hvt
      have h' : s.len + 1 = -1 ∧
          ({ s with hd := v :: s.hd, len := s.len + 1 } : ll_t α) = s' := by simpa using h
      omega
  · split at h
    · have h' : (-1 : Int) = -1 ∧ s = s' := by simpa using h
      exact h'.2.symm
    · next i heq =>
      obtain ⟨hvt, h1, hi, hlt⟩ := select_found_elim s .l_write n i heq
      have hlen := hInv hvt
      have h' : s.len + 1 = -1 ∧
          ({ s with hd := insertAfter s.hd i v, len := s.len + 1 } : ll_t α) = s' := by
        simpa using h
      omega
    · exact absurd h (by simp)
    · exact absurd h (by simp)

theorem remove_success {α : Type} (s : ll_t α) (n : Int)
    (hInv : LLInv s) (hv : s.valid_flag = true) (htd : s.val_teardown = true)
    (h0 : 0 ≤ n) (h2 : n < s.len) :
    ∃ x s', s.hd[n.toNat]? = some x ∧
      ll_remove_n s n = some (s.len - 1, s', [x]) ∧
      s'.len = s.len - 1 ∧ s'.hd.length + 1 = s.hd.length ∧
      s'.valid_flag = true ∧ s'.val_teardown = true ∧ s'.val_printer = s.val_printer := by
  have hlen : s.len = (s.hd.length : Int) := hInv hv
  by_cases hn : n = 0
  · subst hn
    cases hhd : s.hd with
    | nil =>
      exfalso
      rw [hhd] at hlen
      simp at hlen
      omega
    | cons x rest =>
      refine ⟨x, { s with hd := rest, len := s.len - 1 }, by simp [hhd], ?_, rfl,
        by simp [hhd], hv, htd, rfl⟩
      rw [ll_remove_n, if_pos rfl, if_neg (by simp [hv]), hhd]
      simp [htd]
  · have h1 : 1 ≤ n := by omega
    have hsel := select_found s .l_write n hInv hv h1 (by omega)
    have hnt : (n.toNat - 1) + 1 = n.toNat := by omega
    have hlt : n.toNat < s.hd.length := by omega
    obtain ⟨x, hx⟩ : ∃ x, s.hd[n.toNat]? = some x := ⟨s.hd[n.toNat], List.getElem?_eq_getElem hlt⟩
    refine ⟨x, { s with hd := removeAfter s.hd (n.toNat - 1), len := s.len - 1 }, hx, ?_, rfl,
      ?_, hv, htd, rfl⟩
    · simp only [ll_remove_n, if_neg hn, hsel]
      rw [hnt, List.head?_drop, hx]
      simp [htd]
    · show (removeAfter s.hd (n.toNat - 1)).length + 1 = s.hd.length
      exact removeAfter_length _ _ (by omega)

theorem remove_cases {α : Type} (s : ll_t α) (n : Int) (r : Int) (s' : ll_t α) (td : List α)
    (h : ll_remove_n s n = some (r, s', td)) :
    (r = -1 ∧ s' = s ∧ td = []) ∨
    (∃ x, td = [x] ∧ s.hd[n.toNat]? = some x ∧ r = s.len - 1 ∧ s'.len = s.len - 1 ∧
      s'.hd.length + 1 = s.hd.length ∧ s'.valid_flag = s.valid_flag ∧
      s'.val_teardown = s.val_teardown ∧ s'.val_printer = s.val_printer ∧
      s.valid_flag = true) := by
  rw [ll_remove_n] at h
  split at h
  · next hn =>
    split at h
    · have h' : (-1 : Int) = r ∧ s = s' ∧ ([] : List α) = td := by simpa using h
      exact Or.inl ⟨h'.1.symm, h'.2.1.symm, h'.2.2.symm⟩
    · next hv =>
      have hvt : s.valid_flag = true := by simpa using hv
      split at h
      · exact absurd h (by simp)
      · next x rest hhd =>
        split at h
        · next htd =>
          have h' : s.len - 1 = r ∧
              ({ s with hd := rest, len := s.len - 1 } : ll_t α) = s' ∧ [x] = td := by
            simpa using h
          refine Or.inr ⟨x, h'.2.2.symm, by simp [hhd, hn], h'.1.symm, ?_, ?_, ?_, ?_, ?_, hvt⟩
          all_goals rw [← h'.2.1]
          all_goals simp [hhd]
        · exact absurd h (by simp)
  · next hn =>
    split at h
    · have h' : (-1 : Int) = r ∧ s = s' ∧ ([] : List α) = td := by simpa using h
      exact Or.inl ⟨h'.1.symm, h'.2.1.symm, h'.2.2.symm⟩
    · next i heq =>
      obtain ⟨hvt, h1, hi, hlt⟩ := select_found_elim s .l_write n i heq
      split at h
      · exact absurd h (by simp)
      · next x hdrop =>
        split at h
        · next htd =>
          have h' : s.len - 1 = r ∧
              ({ s with hd := removeAfter s.hd i, len := s.len - 1 } : ll_t α) = s' ∧
              [x] = td := by simpa using h
          have hgetx : s.hd[i + 1]? = some x := by rw [← List.head?_drop]; exact hdrop
          have hisucc : i + 1 < s.hd.length := by
            rcases List.getElem?_eq_some.mp hgetx with ⟨hh, _⟩
            exact hh
          have hidx : i + 1 = n.toNat := by omega
          refine Or.inr ⟨x, h'.2.2.symm, by rw [← hidx]; exact hgetx, h'.1.symm, ?_, ?_, ?_, ?_,
            ?_, hvt⟩
          all_goals rw [← h'.2.1]
          all_goals simpa using removeAfter_length i s.hd hisucc
        · exact absurd h (by simp)
    · exact absurd h (by simp)
    · exact absurd h (by simp)

/-- `ll_remove_find` is `ll_remove_search` with the condition
`comparator(node->val, ref_value) == 0` (the two C bodies differ only in the
scan condition). -/
theorem remove_find_eq_search {α β : Type} (s : ll_t α) (comparator : α → β → Int)
    (ref_value : β) :
    ll_remove_find s comparator ref_value
      = ll_remove_search s (fun x => comparator x ref_value == 0) := rfl

theorem search_success {α : Type} (s : ll_t α) (cond : α → Bool) (i : Nat) (x : α)
    (hv : s.valid_flag = true) (htd : s.val_teardown = true)
    (hscan : scanCond cond s.hd = some (i, x)) :
    ll_remove_search s cond
      = some (s.len - 1,
          { s with hd := if i = 0 then s.hd.tail else removeAfter s.hd (i - 1),
                   len := s.len - 1 },
          [x]) := by
  rw [ll_remove_search, if_neg (by simp [hv]), hscan]
  simp [htd]

theorem search_cases {α : Type} (s : ll_t α) (cond : α → Bool) (r : Int) (s' : ll_t α)
    (td : List α) (h : ll_remove_search s cond = some (r, s', td)) :
    (r = -1 ∧ s' = s ∧ td = []) ∨
    (∃ i x, scanCond cond s.hd = some (i, x) ∧ td = [x] ∧ s.hd[i]? = some x ∧
      cond x = true ∧ r = s.len - 1 ∧ s'.len = s.len - 1 ∧
      s'.hd.length + 1 = s.hd.length ∧ s'.valid_flag = s.valid_flag ∧
      s'.val_teardown = s.val_teardown ∧ s'.val_printer = s.val_printer ∧
      s.valid_flag = true) := by
  rw [ll_remove_search] at h
  split at h
  · have h' : (-1 : Int) = r ∧ s = s' ∧ ([] : List α) = td := by simpa using h
    exact Or.inl ⟨h'.1.symm, h'.2.1.symm, h'.2.2.symm⟩
  · next hv =>
    have hvt : s.valid_flag = true := by simpa using hv
    split at h
    · have h' : (-1 : Int) = r ∧ s = s' ∧ ([] : List α) = td := by simpa using h
      exact Or.inl ⟨h'.1.symm, h'.2.1.symm, h'.2.2.symm⟩
    · next i x hscan =>
      split at h
      · next htd =>
        have h' : s.len - 1 = r ∧
            ({ s with hd := if i = 0 then s.hd.tail else removeAfter s.hd (i - 1),
                      len := s.len - 1 } : ll_t α) = s' ∧ [x] = td := by
          simpa using h
        obtain ⟨hget, hcond⟩ := scanCond_some cond s.hd i x hscan
        have hilt : i < s.hd.length := by
          rcases List.getElem?_eq_some.mp hget with ⟨hh, _⟩
          exact hh
        refine Or.inr ⟨i, x, hscan, h'.2.2.symm, hget, hcond, h'.1.symm, ?_, ?_, ?_, ?_, ?_, hvt⟩
        all_goals rw [← h'.2.1]
        show (if i = 0 then s.hd.tail else removeAfter s.hd (i - 1)).length + 1 = s.hd.length
        by_cases hi : i = 0
        · rw [if_pos hi]
          simp only [List.length_tail]
          omega
        · rw [if_neg hi]
          exact removeAfter_length _ _ (by omega)
      · exact absurd h (by simp)

/-! Characterization of `ll_get_n`. -/

theorem get_in_range {α : Type} (s : ll_t α) (n : Int)
    (hInv : LLInv s) (hv : s.valid_flag = true) (h0 : 0 ≤ n) (h2 : n < s.len) :
    ∃ x, s.hd[n.toNat]? = some x ∧ ll_get_n s n = some (some x) := by
  have hlen : s.len = (s.hd.length : Int) := hInv hv
  have hsel := select_found s .l_read (n + 1) hInv hv (by omega) (by omega)
  have hnt : (n + 1).toNat - 1 = n.toNat := by omega
  have hlt : n.toNat < s.hd.length := by omega
  obtain ⟨x, hx⟩ : ∃ x, s.hd[n.toNat]? = some x := ⟨s.hd[n.toNat], List.getElem?_eq_getElem hlt⟩
  refine ⟨x, hx, ?_⟩
  rw [ll_get_n, hsel, hnt]
  show s.hd[n.toNat]?.map (fun v => some v) = some (some x)
  rw [hx]
  rfl

theorem get_minus_one {α : Type} (s : ll_t α) : ll_get_n s (-1) = none := by
  rw [ll_get_n]
  norm_num
  rw [select_zero]

theorem get_below_minus_one {α : Type} (s : ll_t α) (n : Int) (h : n < -1) :
    ll_get_n s n = some none := by
  rw [ll_get_n, select_neg s .l_read (n + 1) (by omega)]

theorem get_invalid {α : Type} (s : ll_t α) (n : Int) (hv : s.valid_flag = false) (h : 0 ≤ n) :
    ll_get_n s n = some none := by
  rw [ll_get_n, select_invalid s .l_read (n + 1) hv (by omega)]

/-! Characterization of `ll_clear`. -/

theorem clear_run {α : Type} (s : ll_t α)
    (hInv : LLInv s) (hv : s.valid_flag = true) (htd : s.val_teardown = true) :
    ll_clear s
      = some ({ len := 0, hd := [], val_teardown := false, val_printer := false,
                valid_flag := false }, s.hd) := by
  have hlen : s.len = (s.hd.length : Int) := hInv hv
  rw [ll_clear, if_neg (by simp [hv]), htd, clearLoop_run]
  rw [show s.len - (s.hd.length : Int) = 0 by omega]
  simp

/-! Behaviour of the operations on an invalidated list. -/

theorem insert_invalid {α : Type} (s : ll_t α) (v : α) (n : Int)
    (hv : s.valid_flag = false) : ll_insert_n s v n = some (-1, s) := by
  by_cases hn : n = 0
  · rw [ll_insert_n, if_pos hn, if_pos hv]
  · rw [ll_insert_n, if_neg hn]
    by_cases hneg : n < 0
    · rw [select_neg s .l_write n hneg]
    · rw [select_invalid s .l_write n hv (by omega)]

theorem remove_invalid {α : Type} (s : ll_t α) (n : Int)
    (hv : s.valid_flag = false) : ll_remove_n s n = some (-1, s, []) := by
  by_cases hn : n = 0
  · rw [ll_remove_n, if_pos hn, if_pos hv]
  · rw [ll_remove_n, if_neg hn]
    by_cases hneg : n < 0
    · rw [select_neg s .l_write n hneg]
    · rw [select_invalid s .l_write n hv (by omega)]

theorem insert_cases {α : Type} (s : ll_t α) (v : α) (n : Int) (r : Int) (s' : ll_t α)
    (h : ll_insert_n s v n = some (r, s')) :
    (r = -1 ∧ s' = s) ∨
    (r = s.len + 1 ∧ s'.len = s.len + 1 ∧ s'.hd.length = s.hd.length + 1 ∧
      s'.valid_flag = s.valid_flag ∧ s'.val_teardown = s.val_teardown ∧
      s'.val_printer = s.val_printer) := by
  rw [ll_insert_n] at h
  split at h
  · split at h
    · have h' : (-1 : Int) = r ∧ s = s' := by simpa using h
      exact Or.inl ⟨h'.1.symm, h'.2.symm⟩
    · have h' : s.len + 1 = r ∧
          ({ s with hd := v :: s.hd, len := s.len + 1 } : ll_t α) = s' := by simpa using h
      refine Or.inr ⟨h'.1.symm, ?_, ?_, ?_, ?_, ?_⟩
      all_goals rw [← h'.2]
      all_goals simp
  · split at h
    · have h' : (-1 : Int) = r ∧ s = s' := by simpa using h
      exact Or.inl ⟨h'.1.symm, h'.2.symm⟩
    · next i heq =>
      have h' : s.len + 1 = r ∧
          ({ s with hd := insertAfter s.hd i v, len := s.len + 1 } : ll_t α) = s' := by
        simpa using h
      refine Or.inr ⟨h'.1.symm, ?_, ?_, ?_, ?_, ?_⟩
      all_goals rw [← h'.2]
      all_goals simp [insertAfter_length]
    · exact absurd h (by simp)
    · exact absurd h (by simp)

/-! The claims. -/

/-- Claim C1 (code bug): the spec states that removing an out-of-range index
(`n < 0` or `n ≥ length`, including `n == 0` on an empty list and
`n == length`) returns `-1`, invokes no teardown and leaves the list
unchanged.  The code does so only for `n < 0` and `n > length`; at `n == 0`
on an empty valid list (`tmp = list->hd; list->hd = tmp->nxt`) and at
`n == length` (`list->val_teardown(tmp->val)` with `tmp == NULL`, after `len`
was already decremented) it dereferences a NULL pointer — modelled as `none`. -/
theorem C1_remove_out_of_range :
    ll_remove_n (ll_new Nat true true) 0 = none ∧
    ll_remove_n demoList 3 = none ∧
    ll_remove_n demoList (-1) = some (-1, demoList, []) ∧
    ll_remove_n demoList 4 = some (-1, demoList, []) := by
  decide

/-- Claim C5: `ll_select_n_min_1` fails immediately for `n < 0` (it returns
before reading any list state), succeeds producing no node for `n == 0`, on a
valid list satisfying the structural invariant succeeds for `1 ≤ n ≤ length`
yielding the node at chain index `n - 1` (an in-range index of the chain),
and fails with `-1` for `n > length`. -/
theorem C5_select_spec {α : Type} (s : ll_t α) (lt : locktype) (n : Int) :
    (n < 0 → ll_select_n_min_1 s n lt = some SelRes.fail) ∧
    (n = 0 → ll_select_n_min_1 s n lt = some SelRes.zero) ∧
    (LLInv s → s.valid_flag = true → 1 ≤ n → n ≤ s.len →
      ll_select_n_min_1 s n lt = some (SelRes.found (n.toNat - 1)) ∧
      n.toNat - 1 < s.hd.length) ∧
    (LLInv s → s.valid_flag = true → s.len < n →
      ll_select_n_min_1 s n lt = some SelRes.fail) := by
  refine ⟨fun h => select_neg s lt n h, fun h => h ▸ select_zero s lt, ?_, ?_⟩
  · intro hInv hv h1 h2
    refine ⟨select_found s lt n hInv hv h1 h2, ?_⟩
    have := hInv hv
    omega
  · intro hInv hv h2
    exact select_over s lt n hInv hv h2

/-- Witness for C5 at the concrete three-element list and `n = 2`: the
predecessor of index 2 is the node at chain index 1. -/
theorem C5_select_spec_witness :
    LLInv demoList ∧ (1 : Int) ≤ 2 ∧ (2 : Int) ≤ demoList.len ∧
    ll_select_n_min_1 demoList 2 locktype.l_read = some (SelRes.found 1) :=
  ⟨fun h_ => rfl, by decide, by decide,
    ((C5_select_spec demoList locktype.l_read 2).2.2.1 (fun h_ => rfl) rfl
      (by decide) (by decide)).1⟩

/-- Claim C10 (code bug): `ll_get_n` is claimed to return NULL for every
negative index, including `n == -1`.  For `n ≤ -2` it does (the internal
selection is called with `n + 1 < 0` and fails), but for `n == -1` the
selection is called with index 0 and reports success without producing a
node, after which `node->val` dereferences the still-NULL `node` — modelled
as `none`.  This happens on every list, valid, empty or cleared. -/
theorem C10_get_minus_one_crashes :
    ll_get_n demoList (-1) = none ∧
    ll_get_n (ll_new Nat true true) (-1) = none ∧
    ll_get_n demoCleared (-1) = none ∧
    ll_get_n demoList (-2) = some none ∧
    ll_get_n demoCleared (-2) = some none ∧
    ll_select_n_min_1 demoList 0 locktype.l_read = some SelRes.zero := by
  decide

/-- Claim C2: on a valid list satisfying the structural invariant, a
successful insert at `0 ≤ n ≤ length` increments `len` by exactly 1 and
returns the new length; an insert that returns `-1` leaves `len` unchanged;
each of `ll_remove_n`, `ll_remove_search` and `ll_remove_find`, whenever it
returns, either returns `-1` with `len` unchanged or returns the new length
`len - 1` having decremented `len` by exactly 1. -/
theorem C2_length_accounting {α β : Type} (s : ll_t α) (v : α) (n : Int)
    (cond : α → Bool) (comparator : α → β → Int) (ref : β) (hInv : LLInv s) :
    (s.valid_flag = true → 0 ≤ n → n ≤ s.len →
      ∃ s', ll_insert_n s v n = some (s.len + 1, s') ∧ s'.len = s.len + 1) ∧
    (∀ s', ll_insert_n s v n = some (-1, s') → s'.len = s.len) ∧
    (∀ r s' td, ll_remove_n s n = some (r, s', td) →
      (r = -1 → s'.len = s.len) ∧ (r ≠ -1 → r = s.len - 1 ∧ s'.len = s.len - 1)) ∧
    (∀ r s' td, ll_remove_search s cond = some (r, s', td) →
      (r = -1 → s'.len = s.len) ∧ (r ≠ -1 → r = s.len - 1 ∧ s'.len = s.len - 1)) ∧
    (∀ r s' td, ll_remove_find s comparator ref = some (r, s', td) →
      (r = -1 → s'.len = s.len) ∧ (r ≠ -1 → r = s.len - 1 ∧ s'.len = s.len - 1)) := by
  refine ⟨?_, ?_, ?_, ?_, ?_⟩
  · intro hv h0 h2
    obtain ⟨s', h1, h2', _⟩ := insert_success s v n hInv hv h0 h2
    exact ⟨s', h1, h2'⟩
  · intro s' h
    rw [insert_fail_state s v n s' hInv h]
  · intro r s' td h
    rcases remove_cases s n r s' td h with ⟨hr, hs, _⟩ |
      ⟨x, _, hget, hr, hlen', _, _, _, _, hvt⟩
    · exact ⟨fun _ => by rw [hs], fun hne => absurd hr hne⟩
    · refine ⟨?_, fun _ => ⟨hr, hlen'⟩⟩
      intro hr1
      have hlen := hInv hvt
      have hlt : n.toNat < s.hd.length := (List.getElem?_eq_some.mp hget).1
      omega
  · intro r s' td h
    rcases search_cases s cond r s' td h with ⟨hr, hs, _⟩ |
      ⟨i, x, _, _, hget, _, hr, hlen', _, _, _, _, hvt⟩
    · exact ⟨fun _ => by rw [hs], fun hne => absurd hr hne⟩
    · refine ⟨?_, fun _ => ⟨hr, hlen'⟩⟩
      intro hr1
      have hlen := hInv hvt
      have hlt : i < s.hd.length := (List.getElem?_eq_some.mp hget).1
      omega
  · intro r s' td h
    rw [remove_find_eq_search] at h
    rcases search_cases s _ r s' td h with ⟨hr, hs, _⟩ |
      ⟨i, x, _, _, hget, _, hr, hlen', _, _, _, _, hvt⟩
    · exact ⟨fun _ => by rw [hs], fun hne => absurd hr hne⟩
    · refine ⟨?_, fun _ => ⟨hr, hlen'⟩⟩
      intro hr1
      have hlen := hInv hvt
      have hlt : i < s.hd.length := (List.getElem?_eq_some.mp hget).1
      omega

/-- Witness for C2: inserting 99 at index 1 of the concrete three-element
list returns the new length 4 and increments `len` to 4. -/
theorem C2_length_accounting_witness :
    LLInv demoList ∧ demoList.valid_flag = true ∧ (0 : Int) ≤ 1 ∧ (1 : Int) ≤ demoList.len ∧
    ∃ s', ll_insert_n demoList 99 1 = some (demoList.len + 1, s') ∧
      s'.len = demoList.len + 1 :=
  ⟨fun h_ => rfl, rfl, by decide, by decide,
    (C2_length_accounting (β := Nat) demoList 99 1 (fun x => false) (fun x r => 1) 0
      (fun h_ => rfl)).1 rfl (by decide) (by decide)⟩

/-- Claim C4: on a valid list satisfying the structural invariant, after a
successful `insert(list, v, n)` with `0 ≤ n ≤ length`, `get(list, n)`
returns exactly `v`. -/
theorem C4_insert_then_get {α : Type} (s : ll_t α) (v : α) (n : Int)
    (hInv : LLInv s) (hv : s.valid_flag = true) (h0 : 0 ≤ n) (h2 : n ≤ s.len) :
    ∃ s', ll_insert_n s v n = some (s.len + 1, s') ∧ ll_get_n s' n = some (some v) := by
  obtain ⟨s', hins, hlen', hchain, hget, hv', htd', hpr'⟩ := insert_success s v n hInv hv h0 h2
  have hInv' : LLInv s' := by
    intro h_
    rw [hlen', hchain, hInv hv]
    push_cast
    ring
  obtain ⟨x, hx, hgn⟩ := get_in_range s' n hInv' hv' h0 (by rw [hlen']; omega)
  have hxv : x = v := by
    rw [hx] at hget
    simpa using hget
  exact ⟨s', hins, by rw [hgn, hxv]⟩

/-- Witness for C4: inserting 99 at index 1 of the concrete three-element
list and reading index 1 back yields 99. -/
theorem C4_insert_then_get_witness :
    LLInv demoList ∧ demoList.valid_flag = true ∧ (0 : Int) ≤ 1 ∧ (1 : Int) ≤ demoList.len ∧
    ∃ s', ll_insert_n demoList 99 1 = some (demoList.len + 1, s') ∧
      ll_get_n s' 1 = some (some 99) :=
  ⟨fun h_ => rfl, rfl, by decide, by decide,
    C4_insert_then_get demoList 99 1 (fun h_ => rfl) rfl (by decide) (by decide)⟩

/-- Claim C3 (code bug): after `clear` (list invalidated) every public
operation except `delete` is claimed to return its failure/empty sentinel and
perform no mutation.  This holds for every operation and argument except
`ll_get_n` at index `-1`, which dereferences a NULL node pointer (`none`)
instead of returning NULL — the same defect on any list, cleared or not. -/
theorem C3_after_clear {α β : Type} (s : ll_t α) (v : α) (n : Int) (f : α → α)
    (cond : α → Bool) (comparator : α → β → Int) (ref : β)
    (hv : s.valid_flag = false) :
    ll_length s = -1 ∧
    ll_insert_n s v n = some (-1, s) ∧
    ll_insert_first s v = some (-1, s) ∧
    ll_insert_last s v = some (-1, s) ∧
    ll_remove_n s n = some (-1, s, []) ∧
    ll_remove_first s = some (-1, s, []) ∧
    ll_pop_first s = (none, s, []) ∧
    ll_remove_search s cond = some (-1, s, []) ∧
    ll_remove_find s comparator ref = some (-1, s, []) ∧
    (n ≠ -1 → ll_get_n s n = some none) ∧
    ll_get_n s (-1) = none ∧
    ll_get_first s = some none ∧
    ll_find s comparator ref = none ∧
    ll_map s f = s ∧
    ll_print s = [] := by
  refine ⟨by rw [ll_length, if_pos hv], insert_invalid s v n hv, insert_invalid s v 0 hv,
    insert_invalid s v s.len hv, remove_invalid s n hv, remove_invalid s 0 hv,
    by rw [ll_pop_first, if_pos hv], by rw [ll_remove_search, if_pos hv],
    by rw [ll_remove_find, if_pos hv], ?_, get_minus_one s,
    get_invalid s 0 hv (le_refl 0), by rw [ll_find, if_pos hv], by rw [ll_map, if_pos hv],
    by rw [ll_print, if_pos hv]⟩
  intro hne
  by_cases h0 : 0 ≤ n
  · exact get_invalid s n hv h0
  · exact get_below_minus_one s n (by omega)

/-- Witness for C3 at the concrete cleared list: length reports the sentinel
and a get at index 5 returns NULL. -/
theorem C3_after_clear_witness :
    demoCleared.valid_flag = false ∧ (5 : Int) ≠ -1 ∧
    ll_length demoCleared = -1 ∧ ll_get_n demoCleared 5 = some none := by
  have h := C3_after_clear (β := Nat) demoCleared 7 5 id (fun x => true) (fun x r => 0) 0 rfl
  exact ⟨rfl, by decide, h.1, h.2.2.2.2.2.2.2.2.2.1 (by decide)⟩

/-- Claim C7: `ll_pop_first` on a valid non-empty list returns the first
node's value, removes that node and decrements `len`, with an always-empty
teardown trace; on an invalid or empty list it returns NULL without mutation.
By contrast, every successful `ll_remove_n` / `ll_remove_search` /
`ll_remove_find` tears down exactly one value: the removed node's value (the
value at the removed index, resp. the first value satisfying the predicate or
comparing equal to the reference). -/
theorem C7_pop_and_teardown {α β : Type} (s : ll_t α) (n : Int) (cond : α → Bool)
    (comparator : α → β → Int) (ref : β) :
    (∀ x rest, s.valid_flag = true → s.hd = x :: rest →
      ll_pop_first s = (some x, { s with hd := rest, len := s.len - 1 }, [])) ∧
    (s.valid_flag = false ∨ s.hd = [] → ll_pop_first s = (none, s, [])) ∧
    ((ll_pop_first s).2.2 = []) ∧
    (LLInv s → s.valid_flag = true → s.val_teardown = true → 0 ≤ n → n < s.len →
      ∃ x s', s.hd[n.toNat]? = some x ∧ ll_remove_n s n = some (s.len - 1, s', [x])) ∧
    (∀ r s' td, ll_remove_search s cond = some (r, s', td) → r ≠ -1 →
      ∃ i x, scanCond cond s.hd = some (i, x) ∧ s.hd[i]? = some x ∧ cond x = true ∧
        td = [x]) ∧
    (∀ r s' td, ll_remove_find s comparator ref = some (r, s', td) → r ≠ -1 →
      ∃ i x, scanCond (fun y => comparator y ref == 0) s.hd = some (i, x) ∧
        s.hd[i]? = some x ∧ comparator x ref = 0 ∧ td = [x]) := by
  refine ⟨?_, ?_, ?_, ?_, ?_, ?_⟩
  · intro x rest hv hhd
    rw [ll_pop_first, if_neg (by simp [hv]), hhd]
  · intro hdisj
    by_cases hv : s.valid_flag = false
    · rw [ll_pop_first, if_pos hv]
    · have hhd : s.hd = [] := hdisj.resolve_left hv
      rw [ll_pop_first, if_neg hv, hhd]
  · by_cases hv : s.valid_flag = false
    · rw [ll_pop_first, if_pos hv]
    · rw [ll_pop_first, if_neg hv]
      cases hhd : s.hd with
      | nil => rfl
      | cons x rest => rfl
  · intro hInv hv htd h0 h2
    obtain ⟨x, s', hget, hrem, _⟩ := remove_success s n hInv hv htd h0 h2
    exact ⟨x, s', hget, hrem⟩
  · intro r s' td h hne
    rcases search_cases s cond r s' td h with ⟨hr, _, _⟩ |
      ⟨i, x, hscan, htdx, hget, hcond, _, _, _, _, _, _, _⟩
    · exact absurd hr hne
    · exact ⟨i, x, hscan, hget, hcond, htdx⟩
  · intro r s' td h hne
    rw [remove_find_eq_search] at h
    rcases search_cases s _ r s' td h with ⟨hr, _, _⟩ |
      ⟨i, x, hscan, htdx, hget, hcond, _, _, _, _, _, _, _⟩
    · exact absurd hr hne
    · exact ⟨i, x, hscan, hget, by simpa using hcond, htdx⟩

/-- Witness for C7: popping the concrete three-element list returns 10 and
leaves the two-element tail, tearing down nothing. -/
theorem C7_pop_and_teardown_witness :
    demoList.valid_flag = true ∧ demoList.hd = 10 :: [20, 30] ∧
    ll_pop_first demoList
      = (some 10, { demoList with hd := [20, 30], len := demoList.len - 1 }, []) :=
  ⟨rfl, rfl,
    (C7_pop_and_teardown (β := Nat) demoList 0 (fun x => false) (fun x r => 1) 0).1
      10 [20, 30] rfl rfl⟩

/-- Claim C8: on a valid list satisfying the structural invariant (with a
bound teardown callback), the teardown loop of `ll_clear` drives `len` to
exactly 0, so the `assert(list->len == 0)` never fires and `ll_clear` cannot
abort. -/
theorem C8_clear_assert {α : Type} (s : ll_t α)
    (hInv : LLInv s) (hv : s.valid_flag = true) (htd : s.val_teardown = true) :
    clearLoop s.val_teardown s.hd s.len = some (0, s.hd) ∧ ll_clear s ≠ none := by
  constructor
  · rw [htd, clearLoop_run, show s.len - (s.hd.length : Int) = 0 from by
      have := hInv hv; omega]
  · rw [clear_run s hInv hv htd]
    simp

/-- Witness for C8 at the concrete three-element list. -/
theorem C8_clear_assert_witness :
    LLInv demoList ∧ demoList.valid_flag = true ∧ demoList.val_teardown = true ∧
    clearLoop demoList.val_teardown demoList.hd demoList.len = some (0, demoList.hd) :=
  ⟨fun h_ => rfl, rfl, rfl, (C8_clear_assert demoList (fun h_ => rfl) rfl rfl).1⟩

/-- Claim C9: `ll_clear` on an already-invalid list is a no-op that changes
no state and invokes no teardown; any state produced by `ll_clear` is
invalid, and `ll_delete` on an invalid list skips the clearing phase (it
performs no teardown) before releasing the list's memory — so delete after
clear is a no-op clear followed by memory release. -/
theorem C9_clear_delete_idempotent {α : Type} (s s' : ll_t α) (tds : List α) :
    (s.valid_flag = false → ll_clear s = some (s, []) ∧ ll_delete s = some []) ∧
    (ll_clear s = some (s', tds) → s'.valid_flag = false ∧ ll_delete s' = some []) := by
  constructor
  · intro hv
    exact ⟨by rw [ll_clear, if_pos hv], by rw [ll_delete, if_pos hv]⟩
  · intro h
    have hvf : s'.valid_flag = false := by
      rw [ll_clear] at h
      split at h
      · next hv =>
        have h' : s = s' ∧ ([] : List α) = tds := by simpa using h
        rw [← h'.1]
        exact hv
      · split at h
        · exact absurd h (by simp)
        · next len2 tds2 heq2 =>
          split at h
          · have h' :
                ({ len := 0, hd := [], val_teardown := false, val_printer := false,
                   valid_flag := false } : ll_t α) = s' ∧ tds2 = tds := by
              simpa using h
            rw [← h'.1]
          · exact absurd h (by simp)
    exact ⟨hvf, by rw [ll_delete, if_pos hvf]⟩

/-- Witness for C9 at the concrete cleared list: clear is a no-op with no
teardown and delete performs no teardown. -/
theorem C9_clear_delete_idempotent_witness :
    demoCleared.valid_flag = false ∧
    ll_clear demoCleared = some (demoCleared, []) ∧ ll_delete demoCleared = some [] :=
  ⟨rfl, (C9_clear_delete_idempotent demoCleared demoCleared []).1 rfl⟩

theorem insert_step_preserves {α : Type} (s s' : ll_t α) (v : α) (n : Int)
    (hInv : LLInv s) (h : (ll_insert_n s v n).map Prod.snd = some s') : LLInv s' := by
  match hres : ll_insert_n s v n with
  | none => rw [hres] at h; simp at h
  | some (r, s2) =>
    rw [hres] at h
    have hs : s2 = s' := by simpa using h
    subst hs
    rcases insert_cases s v n r s2 hres with ⟨_, hss⟩ | ⟨_, hlen, hchain, hvf, _, _⟩
    · rw [hss]; exact hInv
    · intro hv'
      have hv : s.valid_flag = true := by rw [← hvf]; exact hv'
      have := hInv hv
      rw [hlen, hchain]
      push_cast
      omega

theorem remove_step_preserves {α : Type} (s s' : ll_t α) (n : Int)
    (hInv : LLInv s) (h : (ll_remove_n s n).map (fun p => p.2.1) = some s') : LLInv s' := by
  match hres : ll_remove_n s n with
  | none => rw [hres] at h; simp at h
  | some (r, s2, td) =>
    rw [hres] at h
    have hs : s2 = s' := by simpa using h
    subst hs
    rcases remove_cases s n r s2 td hres with ⟨_, hss, _⟩ |
      ⟨x, _, hget, _, hlen, hchain, hvf, _, _, hvt⟩
    · rw [hss]; exact hInv
    · intro hv'
      have := hInv hvt
      rw [hlen]
      omega

theorem search_step_preserves {α : Type} (s s' : ll_t α) (cond : α → Bool)
    (hInv : LLInv s) (h : (ll_remove_search s cond).map (fun p => p.2.1) = some s') :
    LLInv s' := by
  match hres : ll_remove_search s cond with
  | none => rw [hres] at h; simp at h
  | some (r, s2, td) =>
    rw [hres] at h
    have hs : s2 = s' := by simpa using h
    subst hs
    rcases search_cases s cond r s2 td hres with ⟨_, hss, _⟩ |
      ⟨i, x, _, _, hget, _, _, hlen, hchain, hvf, _, _, hvt⟩
    · rw [hss]; exact hInv
    · intro hv'
      have := hInv hvt
      rw [hlen]
      omega

/-- Claim C6: the structural invariant — while the list is valid, `len`
equals the number of nodes in the chain (the chain, being a `List`, is
inherently finite and acyclic) — holds for a newly created list and is
preserved by every public operation applied with its stated index
precondition, hence by any sequence of such operations. -/
theorem C6_invariant_preservation {α β : Type} (tdb pb : Bool) (s s' : ll_t α)
    (op : Op α β) :
    LLInv (ll_new α tdb pb) ∧
    (LLInv s → precondOp s op → stepOp s op = some s' → LLInv s') := by
  constructor
  · intro h_
    rfl
  · intro hInv hpre hstep
    cases op with
    | op_insert v n => exact insert_step_preserves s s' v n hInv hstep
    | op_insert_first v => exact insert_step_preserves s s' v 0 hInv hstep
    | op_insert_last v => exact insert_step_preserves s s' v s.len hInv hstep
    | op_remove n => exact remove_step_preserves s s' n hInv hstep
    | op_remove_first => exact remove_step_preserves s s' 0 hInv hstep
    | op_pop_first =>
      have hs : (ll_pop_first s).2.1 = s' := by
        simpa using (show some (ll_pop_first s).2.1 = some s' from hstep)
      rw [← hs]
      by_cases hv : s.valid_flag = false
      · rw [ll_pop_first, if_pos hv]
        exact hInv
      · rw [ll_pop_first, if_neg hv]
        cases hhd : s.hd with
        | nil => exact hInv
        | cons x rest =>
          intro hv'
          have hvt : s.valid_flag = true := by simpa using hv
          have := hInv hvt
          have hlen : s.hd.length = rest.length + 1 := by rw [hhd]; rfl
          show s.len - 1 = (rest.length : Int)
          omega
    | op_remove_search cond => exact search_step_preserves s s' cond hInv hstep
    | op_remove_find comparator ref =>
      have h' : (ll_remove_search s (fun x => comparator x ref == 0)).map
          (fun p => p.2.1) = some s' := by
        rw [← remove_find_eq_search]
        exact hstep
      exact search_step_preserves s s' _ hInv h'
    | op_get n =>
      match hres : ll_get_n s n with
      | none => rw [show stepOp s (Op.op_get (β := β) n) = (ll_get_n s n).map (fun _ => s)
          from rfl, hres] at hstep; simp at hstep
      | some y =>
        rw [show stepOp s (Op.op_get (β := β) n) = (ll_get_n s n).map (fun _ => s)
          from rfl, hres] at hstep
        have : s = s' := by simpa using hstep
        rw [← this]
        exact hInv
    | op_get_first =>
      match hres : ll_get_first s with
      | none => rw [show stepOp s (Op.op_get_first (α := α) (β := β))
          = (ll_get_first s).map (fun _ => s) from rfl, hres] at hstep; simp at hstep
      | some y =>
        rw [show stepOp s (Op.op_get_first (α := α) (β := β))
          = (ll_get_first s).map (fun _ => s) from rfl, hres] at hstep
        have : s = s' := by simpa using hstep
        rw [← this]
        exact hInv
    | op_find comparator ref =>
      have : s = s' := by simpa using (show some s = some s' from hstep)
      rw [← this]
      exact hInv
    | op_map f =>
      have : ll_map s f = s' := by simpa using (show some (ll_map s f) = some s' from hstep)
      rw [← this]
      by_cases hv : s.valid_flag = false
      · rw [ll_map, if_pos hv]
        exact hInv
      · rw [ll_map, if_neg hv]
        intro hv'
        have hvt : s.valid_flag = true := by simpa using hv
        have := hInv hvt
        show s.len = ((mapLoop f s.hd).length : Int)
        rw [mapLoop_length]
        exact this

/-- Witness for C6: inserting 7 at index 1 of the concrete three-element
list satisfies the precondition and preserves the invariant. -/
theorem C6_invariant_preservation_witness :
    LLInv demoList ∧ precondOp demoList (Op.op_insert (β := Nat) 7 1) ∧
    stepOp demoList (Op.op_insert (β := Nat) 7 1)
      = some { len := 4, hd := [10, 7, 20, 30], val_teardown := true, val_printer := true,
               valid_flag := true } ∧
    LLInv { len := 4, hd := [10, 7, 20, 30], val_teardown := true, val_printer := true,
            valid_flag := true } :=
  ⟨fun h_ => rfl, ⟨by decide, by decide⟩, by decide,
    (C6_invariant_preservation true true demoList
      { len := 4, hd := [10, 7, 20, 30], val_teardown := true, val_printer := true,
        valid_flag := true }
      (Op.op_insert (β := Nat) 7 1)).2 (fun h_ => rfl) ⟨by decide, by decide⟩ (by decide)⟩
